import Mathlib

/-!
Shallow embedding of `src/streamlit_app.py`, the NF-e access-key extractor
and PDF re-renderer.

Modelling conventions:
* Text is a `List Char` (ASCII fragment of Python's Unicode semantics).
* Python `float` arithmetic is modelled by exact rational arithmetic on `ℚ`;
  the ReportLab unit `mm = 72 / 25.4` points is the exact rational `360/127`.
* `pdfmetrics.stringWidth` is an external font-metric oracle and is passed as
  an abstract function argument `sw : String → String → ℚ → ℚ`
  (text, font, size ↦ rendered width).
* The two `while` loops of the source are embedded with an explicit fuel that
  is proved sufficient, so every definition is executable.
-/

namespace NFe

/-- Decimal-digit test: Python regex `\d` (ASCII fragment). -/
def isDigitB (c : Char) : Bool := c.isDigit

/-- Word-character test: Python regex `\w` (ASCII fragment):
letters, digits and the underscore. -/
def isWordB (c : Char) : Bool := c.isAlphanum || c == '_'

/-- `matchAt s i` : the regex `KEY_RE = \b\d{44}\b` (line 13 of the source)
matches `s` at position `i`.  Since `\d{44}` forces `s[i]` and `s[i+43]` to be
word characters, the word-boundary `\b` at the left is equivalent to
`i = 0 ∨ s[i-1]` non-word, and at the right to `i+44 = |s| ∨ s[i+44]`
non-word. -/
def matchAt (s : List Char) (i : Nat) : Bool :=
  decide (i + 44 ≤ s.length) &&
  ((s.drop i).take 44).all isDigitB &&
  (decide (i = 0) || !isWordB (s.getD (i - 1) ' ')) &&
  (decide (i + 44 = s.length) || !isWordB (s.getD (i + 44) ' '))

/-- One left-to-right scan of `re.findall(KEY_RE, s)`: try the pattern at
position `i`; on a match emit the 44-character slice and resume after it,
otherwise advance one position.  `fuel` bounds the number of steps; it is
sufficient whenever `fuel ≥ s.length - i` (the scan position strictly
increases), which is how `reFindAll` instantiates it. -/
def goFind : Nat → List Char → Nat → List (List Char)
  | 0, _, _ => []
  | fuel + 1, s, i =>
    if i < s.length then
      if matchAt s i then ((s.drop i).take 44) :: goFind fuel s (i + 44)
      else goFind fuel s (i + 1)
    else []

/-- `KEY_RE.findall(text)` (line 25 of the source): all non-overlapping
matches of `\b\d{44}\b`, left to right. -/
def reFindAll (s : List Char) : List (List Char) := goFind s.length s 0

/-- Inner loop of `extract_keys_from_pdf` (lines 25-28): walk the matches of
one page, appending each token that is not yet in `seen` and recording it in
`seen`; returns the kept tokens together with the updated `seen` set
(modelled as a list with membership lookups). -/
def scanPage : List (List Char) → List (List Char) → List (List Char) × List (List Char)
  | [], seen => ([], seen)
  | k :: ks, seen =>
    if k ∈ seen then scanPage ks seen
    else
      let r := scanPage ks (k :: seen)
      (k :: r.1, r.2)

/-- Outer loop of `extract_keys_from_pdf` (lines 23-28): per page, run
`KEY_RE.findall` and the dedup scan, threading `seen` through all pages. -/
def scanPages : List (List Char) → List (List Char) → List (List Char)
  | [], _ => []
  | p :: ps, seen =>
    let r := scanPage (reFindAll p) seen
    r.1 ++ scanPages ps r.2

/-- `extract_keys_from_pdf` (lines 19-29): the ordered, first-occurrence
deduplicated key sequence of a PDF given as its per-page texts. -/
def extract_keys_from_pdf (pages : List (List Char)) : List (List Char) :=
  scanPages pages []

/-- Dedup scan of a flat token stream against a `seen` accumulator; the
page-structured `scanPages` is proved equal to this on the concatenated
match stream. -/
def dedupScan : List (List Char) → List (List Char) → List (List Char)
  | [], _ => []
  | k :: ks, seen =>
    if k ∈ seen then dedupScan ks seen else k :: dedupScan ks (k :: seen)

/-- The `seen` set after scanning a token stream. -/
def seenAfter : List (List Char) → List (List Char) → List (List Char)
  | [], seen => seen
  | k :: ks, seen =>
    if k ∈ seen then seenAfter ks seen else seenAfter ks (k :: seen)

/-- Python whitespace for `str.strip()` (ASCII fragment):
space, tab, newline, carriage return, vertical tab, form feed. -/
def isPySpace (c : Char) : Bool :=
  c == ' ' || c == '\t' || c == '\n' || c == '\r' ||
  c == Char.ofNat 11 || c == Char.ofNat 12

/-- `str.strip()` on a character list: remove leading and trailing
whitespace. -/
def pyStripList (s : List Char) : List Char :=
  ((s.dropWhile isPySpace).reverse.dropWhile isPySpace).reverse

/-- `h.strip()` for a Lean `String`. -/
def pyStrip (h : String) : String := String.mk (pyStripList h.data)

/-- `normalize_hora` (lines 48-54): empty or whitespace-only input and the
recognized placeholder variants collapse to the canonical placeholder;
every other input is returned *stripped* (the source returns `s = h.strip()`,
line 54). -/
def normalize_hora (h : String) : String :=
  if h = "" ∨ pyStrip h = "" then "_____ : _____"
  else
    if pyStrip h = "_____ : _____" ∨ pyStrip h = "_____:_____" ∨
        pyStrip h = "____ : ____" then "_____ : _____"
    else pyStrip h

/-- Python `"\n".join(keys)`: the keys interleaved with single newlines. -/
def joinNL : List (List Char) → List Char
  | [] => []
  | [k] => k
  | k :: ks => k ++ '\n' :: joinNL ks

/-- Content written by `write_txt` (lines 57-60): `"\n".join(keys)` followed
by one final newline. -/
def write_txt_content (keys : List (List Char)) : List Char :=
  joinNL keys ++ ['\n']

/-- Splitting a text on the newline character, Python `str.split("\n")`
semantics: `n` newlines produce `n+1` (possibly empty) fields. -/
def splitNL : List Char → List (List Char)
  | [] => [[]]
  | c :: cs =>
    if c = '\n' then [] :: splitNL cs
    else
      match splitNL cs with
      | [] => [[c]]
      | r :: rs => (c :: r) :: rs

/-- `_pages_for` (lines 86-88): pages needed for `n_items` at `cols` columns
of `lines_per_col` lines, with the denominator clamped to at least 1. -/
def pagesFor (n_items cols lines_per_col : Nat) : Nat :=
  (n_items + max 1 (cols * max 1 lines_per_col) - 1) / max 1 (cols * max 1 lines_per_col)

/-- `max(keys, key=len) if keys else "0" * 44` (line 108): the first longest
key, or a 44-zero placeholder for an empty list.  Python's `max` keeps the
current element on ties, so the first maximum wins. -/
def sampleOf (keys : List String) : String :=
  match keys with
  | [] => String.mk (List.replicate 44 '0')
  | k :: ks => ks.foldl (fun a b => if a.length < b.length then b else a) k

/-- `_fit_font_size_for_column` (lines 77-83): starting at `max_size`, step
down by `0.2` while the rendered width of `text_sample` exceeds `col_width`;
return the first fitting size, or `7.0` once the size drops below `7.0`. -/
def fit_font_size_for_column (sw : String → String → ℚ → ℚ)
    (text_sample : String) (col_width : ℚ) (font : String) (max_size : ℚ) : ℚ :=
  if h : 7 ≤ max_size then
    if sw text_sample font max_size ≤ col_width then max_size
    else fit_font_size_for_column sw text_sample col_width font (max_size - 1/5)
  else 7
termination_by (⌈5 * max_size⌉).toNat
decreasing_by
  have h1 : (5 : ℚ) * (max_size - 1/5) = 5 * max_size - (1 : ℤ) := by push_cast; ring
  have h2 : (0 : ℤ) < ⌈5 * max_size⌉ := by
    rw [Int.lt_ceil]; push_cast; linarith
  rw [h1, Int.ceil_sub_int]
  omega

/-- `_choose_columns_and_font` (lines 91-125): compute for 2 and for 3
columns the column width, fitted font size and page count; return the
3-column plan only when its font stays at or above `min_font_ok` and it
strictly reduces the page count, else the 2-column plan. -/
def chooseColumnsAndFont (sw : String → String → ℚ → ℚ) (keys : List String)
    (w left right gutter : ℚ) (lines_per_col : Nat) (font : String)
    (max_font min_font_ok : ℚ) : Nat × ℚ × ℚ :=
  let sample := sampleOf keys
  let avail2 := w - left - right - gutter * 1
  let col_w2 := avail2 / 2
  let size2 := fit_font_size_for_column sw sample col_w2 font max_font
  let avail3 := w - left - right - gutter * 2
  let col_w3 := avail3 / 3
  let size3 := fit_font_size_for_column sw sample col_w3 font max_font
  let pages2 := pagesFor keys.length 2 lines_per_col
  let pages3 := pagesFor keys.length 3 lines_per_col
  if min_font_ok ≤ size3 ∧ pages3 < pages2 then (3, size3, col_w3)
  else (2, size2, col_w2)

/-- ReportLab `mm` in points: `72 / 25.4`. -/
def mmQ : ℚ := 360 / 127

/-- A4 width, `210*mm` (`_page_geometry`, line 70). -/
def pageW : ℚ := 210 * mmQ

/-- A4 height, `297*mm`. -/
def pageH : ℚ := 297 * mmQ

/-- Left margin `16*mm` (line 71). -/
def leftM : ℚ := 16 * mmQ

/-- Right margin `16*mm` (line 72). -/
def rightM : ℚ := 16 * mmQ

/-- Top of the writable area, `h - 16*mm` (line 73). -/
def topY : ℚ := pageH - 16 * mmQ

/-- Header/section line height `6*mm` (line 139). -/
def lineH : ℚ := 6 * mmQ

/-- Signature line height `22*mm` (line 142). -/
def sigLineY : ℚ := 22 * mmQ

/-- Top of the signature block, `sig_line_y + 6*mm` (line 144). -/
def sigBlockTop : ℚ := sigLineY + 6 * mmQ

/-- Floor for the total line, `sig_block_top + 10*mm` (line 147). -/
def totalMinY : ℚ := sigBlockTop + 10 * mmQ

/-- Gap factor between last key and total, `1.8` (line 150). -/
def gapKeysToTotal : ℚ := 9 / 5

/-- Inter-column gutter `16*mm` (line 153). -/
def gutterQ : ℚ := 16 * mmQ

/-- Header box height `9*mm` (line 169). -/
def headerH : ℚ := 9 * mmQ

/-- Hour box height `22*mm` (line 176). -/
def boxH : ℚ := 22 * mmQ

/-- Key-list line height `5*mm` (line 192). -/
def listLineH : ℚ := 5 * mmQ

/-- Bottom limit for the key list, `total_min_y + list_line_h` (line 196). -/
def listBottom : ℚ := totalMinY + listLineH * 1

/-- Cursor position where the key list starts on page 1: top minus header
box (+4mm), hour box (+12mm) and the section title line (lines 169-187). -/
def yList1 : ℚ := topY - (headerH + 4 * mmQ) - (boxH + 12 * mmQ) - lineH * 1

/-- Cursor position where the key list starts on later pages:
`new_page_repeat_title` resets to the top and descends `line_h * 1.1`
(lines 157-164). -/
def yListN : ℚ := topY - lineH * (11 / 10)

/-- `lines_per_col` for page 1, `max(1, int(usable_h // list_line_h))`
(lines 198-199). -/
def lpc1 : Nat := max 1 (Int.toNat ⌊(yList1 - listBottom) / listLineH⌋)

/-- `lines_per_col` recomputed after each page break (lines 238-239);
the cursor is the same on every later page, so the value is constant. -/
def lpcN : Nat := max 1 (Int.toNat ⌊(yListN - listBottom) / listLineH⌋)

/-- One page grid of the renderer loop (lines 220-234): `cols` columns, each
taking up to `lpc` keys from the stream in order.  Columns after the stream
is exhausted are empty (the source breaks out of the loop there; an empty
column draws nothing). -/
def pageColumns {α : Type} (ks : List α) (cols lpc : Nat) : List (List α) :=
  match cols with
  | 0 => []
  | c + 1 => ks.take lpc :: pageColumns (ks.drop lpc) c lpc

/-- The `while idx < len(keys)` pagination loop (lines 216-239): emit page
grids until the keys are exhausted; the first page uses `l1` lines per
column, later pages `lN`.  `fuel` bounds the number of pages; `none` means
the fuel ran out (with `fuel = keys.length` it never does, since each page
consumes at least one key when `cols ≥ 1` and `l1, lN ≥ 1`). -/
def paginate {α : Type} : Nat → List α → Nat → Nat → Nat → Option (List (List (List α)))
  | _, [], _, _, _ => some []
  | 0, _ :: _, _, _, _ => none
  | fuel + 1, k :: ks, cols, l1, lN =>
    match paginate fuel ((k :: ks).drop (cols * l1)) cols lN lN with
    | some rest => some (pageColumns (k :: ks) cols l1 :: rest)
    | none => none

/-- Lowest vertical coordinate drawn on a page (lines 214-229): the minimum,
over every key drawn in the grid, of its `yy` coordinate, folded from the
page-start cursor.  Row `r` of any column sits at `startY - llh * r`. -/
def pageLowest (startY llh : ℚ) (grid : List (List String)) : ℚ :=
  ((grid.map (fun col => (List.range col.length).map
    (fun r => startY - llh * r))).flatten).foldl min startY

/-- Result of the layout portion of `render_pdf`: chosen column count, font
size, column width, the page grids, the lowest cursor on the last page, and
the final (clamped) vertical position of the total line. -/
structure RenderResult where
  cols : Nat
  fontSize : ℚ
  colWidth : ℚ
  pages : List (List (List String))
  lowestY : ℚ
  totalY : ℚ

/-- Layout computation of `render_pdf` (lines 131-248), with the drawing
side effects stripped: choose columns and font (line 201), paginate
(lines 216-239), track the lowest cursor of the last page, and place the
total line at `lowest - list_line_h * 1.8` clamped to `total_min_y`
(lines 244-245). -/
def renderLayout (sw : String → String → ℚ → ℚ) (keys : List String) : RenderResult :=
  let cfc := chooseColumnsAndFont sw keys pageW leftM rightM gutterQ lpc1
    ("Courier") 10 (17/2)
  let pages := (paginate keys.length keys cfc.1 lpc1 lpcN).getD []
  let startY := if pages.length ≤ 1 then yList1 else yListN
  let lowest := if keys.isEmpty then yList1
    else pageLowest startY listLineH (pages.getLastD [])
  let tY := max (lowest - listLineH * gapKeysToTotal) totalMinY
  ⟨cfc.1, cfc.2.1, cfc.2.2, pages, lowest, tY⟩

/-- Position of the first occurrence of `k` in `l` (list length when
absent): the index relevant for first-occurrence ordering. -/
def firstIdx (l : List (List Char)) (k : List Char) : Nat :=
  l.findIdx (fun x => decide (x = k))

/-- A 44-digit key used by concrete witnesses. -/
def d44c : List Char := List.replicate 44 '0'

/-- A page text holding exactly one 44-digit run, dot-bounded. -/
def keyPage : List Char := '.' :: (d44c ++ ['.'])

/-! ### Theorems -/

/-- C5: the font-fit resolver runs through the sizes
`max_size, max_size - 0.2, max_size - 0.4, …` (step `k` tests
`max_size - k/5`): if every tested size before step `k` was too wide, then a
fitting size at step `k` (still at or above the `7.0` floor) is returned
as-is, and once the size drops below `7.0` the floor `7.0` is returned.  The
embedding is a pure function of `(sw, text, width, font, max_size)`, so
determinism and absence of side effects hold by construction. -/
theorem fit_font_first_fitting_size (sw : String → String → ℚ → ℚ)
    (sample : String) (colw : ℚ) (font : String) :
    ∀ (k : ℕ) (maxs : ℚ),
      (∀ j : ℕ, j < k → 7 ≤ maxs - j / 5 → colw < sw sample font (maxs - j / 5)) →
      ((7 ≤ maxs - k / 5 ∧ sw sample font (maxs - k / 5) ≤ colw →
        fit_font_size_for_column sw sample colw font maxs = maxs - k / 5) ∧
       (maxs - k / 5 < 7 →
        fit_font_size_for_column sw sample colw font maxs = 7)) := by
  intro k
  induction k with
  | zero =>
    intro maxs _
    constructor
    · rintro ⟨h7, hfit⟩
      rw [fit_font_size_for_column]
      simp only [Nat.cast_zero, zero_div, sub_zero] at h7 hfit ⊢
      rw [dif_pos h7, if_pos hfit]
    · intro hlt
      rw [fit_font_size_for_column]
      simp only [Nat.cast_zero, zero_div, sub_zero] at hlt
      rw [dif_neg (not_le.mpr hlt)]
  | succ k ih =>
    intro maxs hprev
    have hshift : ∀ j : ℕ, (maxs - 1/5) - (j : ℚ) / 5 = maxs - ((j : ℚ) + 1) / 5 := by
      intro j; ring
    have hprev' : ∀ j : ℕ, j < k → 7 ≤ (maxs - 1/5) - j / 5 →
        colw < sw sample font ((maxs - 1/5) - j / 5) := by
      intro j hj h7
      rw [hshift j] at h7 ⊢
      have := hprev (j + 1) (by omega)
      push_cast at this
      exact this h7
    have hk1 : (maxs - 1/5) - (k : ℚ) / 5 = maxs - ((k : ℚ) + 1) / 5 := hshift k
    constructor
    · rintro ⟨h7, hfit⟩
      push_cast at h7 hfit
      have h7top : (7 : ℚ) ≤ maxs := by
        have : (0 : ℚ) ≤ ((k : ℚ) + 1) / 5 := by positivity
        linarith
      have hnofit : ¬ sw sample font maxs ≤ colw := by
        have := hprev 0 (by omega)
        simp only [Nat.cast_zero, zero_div, sub_zero] at this
        exact not_le.mpr (this h7top)
      rw [fit_font_size_for_column, dif_pos h7top, if_neg hnofit]
      have := (ih (maxs - 1/5) hprev').1
      rw [hk1] at this
      push_cast
      exact this ⟨h7, hfit⟩
    · intro hlt
      push_cast at hlt
      by_cases h7top : (7 : ℚ) ≤ maxs
      · have hnofit : ¬ sw sample font maxs ≤ colw := by
          have := hprev 0 (by omega)
          simp only [Nat.cast_zero, zero_div, sub_zero] at this
          exact not_le.mpr (this h7top)
        rw [fit_font_size_for_column, dif_pos h7top, if_neg hnofit]
        have := (ih (maxs - 1/5) hprev').2
        rw [hk1] at this
        exact this hlt
      · rw [fit_font_size_for_column, dif_neg h7top]

/-- Witness for C5: with width oracle `sw = size`, column width `8` and
`max_size = 10`, the sizes `10, 9.8, …, 8.2` are all too wide and step 10
tests `8.0`, which fits and is returned. -/
theorem fit_font_first_fitting_size_witness :
    (7 ≤ (10 : ℚ) - (10 : ℕ) / 5 ∧
      (fun (_ : String) (_ : String) (s : ℚ) => s) ("x") ("F") ((10 : ℚ) - (10 : ℕ) / 5) ≤ 8) ∧
    fit_font_size_for_column (fun _ _ s => s) ("x") 8 ("F") 10 = (10 : ℚ) - (10 : ℕ) / 5 := by
  have h := (fit_font_first_fitting_size (fun _ _ s => s) ("x") 8 ("F") 10 10
    (by intro j hj h7; interval_cases j <;> norm_num)).1
  exact ⟨⟨by norm_num, by norm_num⟩, h ⟨by norm_num, by norm_num⟩⟩

/-- C4: the planner returns 3 columns exactly when the 3-column layout both
needs strictly fewer pages than the 2-column layout and resolves (via the
font-fit resolver on the 3-column width) to a size at or above
`min_font_ok`; in every other case — including a page-count tie — it
returns 2 columns with the 2-column width and its fitted font size. -/
theorem choose_columns_selection_rule
    (sw : String → String → ℚ → ℚ) (keys : List String)
    (w left right gutter : ℚ) (lpc : Nat) (font : String)
    (max_font min_font_ok : ℚ) :
    ((chooseColumnsAndFont sw keys w left right gutter lpc font max_font min_font_ok).1 = 3 ↔
      (min_font_ok ≤ fit_font_size_for_column sw (sampleOf keys)
          ((w - left - right - gutter * 2) / 3) font max_font ∧
        pagesFor keys.length 3 lpc < pagesFor keys.length 2 lpc)) ∧
    (¬ (min_font_ok ≤ fit_font_size_for_column sw (sampleOf keys)
          ((w - left - right - gutter * 2) / 3) font max_font ∧
        pagesFor keys.length 3 lpc < pagesFor keys.length 2 lpc) →
      chooseColumnsAndFont sw keys w left right gutter lpc font max_font min_font_ok =
        (2, fit_font_size_for_column sw (sampleOf keys)
          ((w - left - right - gutter * 1) / 2) font max_font,
          (w - left - right - gutter * 1) / 2)) ∧
    (pagesFor keys.length 3 lpc = pagesFor keys.length 2 lpc →
      chooseColumnsAndFont sw keys w left right gutter lpc font max_font min_font_ok =
        (2, fit_font_size_for_column sw (sampleOf keys)
          ((w - left - right - gutter * 1) / 2) font max_font,
          (w - left - right - gutter * 1) / 2)) ∧
    ((min_font_ok ≤ fit_font_size_for_column sw (sampleOf keys)
          ((w - left - right - gutter * 2) / 3) font max_font ∧
        pagesFor keys.length 3 lpc < pagesFor keys.length 2 lpc) →
      chooseColumnsAndFont sw keys w left right gutter lpc font max_font min_font_ok =
        (3, fit_font_size_for_column sw (sampleOf keys)
          ((w - left - right - gutter * 2) / 3) font max_font,
          (w - left - right - gutter * 2) / 3)) := by
  by_cases hc : (min_font_ok ≤ fit_font_size_for_column sw (sampleOf keys)
      ((w - left - right - gutter * 2) / 3) font max_font ∧
    pagesFor keys.length 3 lpc < pagesFor keys.length 2 lpc)
  · refine ⟨by simp [chooseColumnsAndFont, hc], fun hnc => absurd hc hnc,
      fun heq => absurd (heq ▸ hc.2) (lt_irrefl _),
      fun _ => by simp [chooseColumnsAndFont, hc]⟩
  · refine ⟨by simp [chooseColumnsAndFont, hc],
      fun _ => by simp [chooseColumnsAndFont, hc],
      fun _ => by simp [chooseColumnsAndFont, hc],
      fun h => absurd h hc⟩

/-- Witness for C4: with a zero-width oracle and one key at one line per
column, both layouts need one page (a tie), so the planner returns the
2-column plan. -/
theorem choose_columns_selection_rule_witness :
    pagesFor (1 : Nat) 3 1 = pagesFor 1 2 1 ∧
    chooseColumnsAndFont (fun _ _ _ => 0) ["0"] 100 0 0 0 1 ("F") 10 (17/2) =
      (2, fit_font_size_for_column (fun _ _ _ => 0) (sampleOf ["0"])
        ((100 - 0 - 0 - 0 * 1) / 2) ("F") 10, (100 - 0 - 0 - 0 * 1) / 2) := by
  have hlen : (["0"] : List String).length = 1 := rfl
  refine ⟨rfl, ?_⟩
  have h := (choose_columns_selection_rule (fun _ _ _ => 0) ["0"] 100 0 0 0 1
    ("F") 10 (17/2)).2.2.1
  rw [hlen] at h
  exact h rfl

/-- Splitting never produces an empty field list. -/
theorem splitNL_ne_nil (s : List Char) : splitNL s ≠ [] := by
  induction s with
  | nil => simp [splitNL]
  | cons c cs ih =>
    rw [splitNL]
    split
    · simp
    · match h : splitNL cs with
      | [] => simp
      | r :: rs => simp

/-- Prepending newline-free text extends the first field of a split. -/
theorem splitNL_append (k s : List Char) (r : List Char) (rs : List (List Char))
    (hs : splitNL s = r :: rs) (hnl : ('\n') ∉ k) :
    splitNL (k ++ s) = (k ++ r) :: rs := by
  induction k with
  | nil => simpa using hs
  | cons c k ih =>
    have hc : c ≠ '\n' := fun h => hnl (h ▸ List.mem_cons_self c k)
    have ihk : splitNL (k ++ s) = (k ++ r) :: rs :=
      ih (fun h => hnl (List.mem_cons_of_mem c h))
    rw [List.cons_append, splitNL, if_neg hc, ihk]
    rfl

/-- C8 (amended): for a non-empty key list whose keys contain no newline,
the TXT content is the newline-join of the keys plus one trailing newline,
and splitting it on newlines yields the key sequence followed by exactly one
empty field coming from the trailing newline (so dropping that final empty
field reproduces the keys; splitting alone does not). -/
theorem write_txt_roundtrip_amended (keys : List (List Char))
    (hne : keys ≠ []) (hnl : ∀ k ∈ keys, ('\n') ∉ k) :
    splitNL (write_txt_content keys) = keys ++ [[]] := by
  induction keys with
  | nil => exact absurd rfl hne
  | cons k ks ih =>
    match ks with
    | [] =>
      have hk : ('\n') ∉ k := hnl k (List.mem_cons_self k [])
      have h1 : splitNL ['\n'] = [] :: [[]] := rfl
      have := splitNL_append k ['\n'] [] [[]] h1 hk
      simpa [write_txt_content, joinNL] using this
    | k2 :: ks =>
      have hk : ('\n') ∉ k := hnl k (List.mem_cons_self k _)
      have hrest : splitNL (write_txt_content (k2 :: ks)) = (k2 :: ks) ++ [[]] :=
        ih (by simp) (fun a ha => hnl a (List.mem_cons_of_mem k ha))
      have hcontent : write_txt_content (k :: k2 :: ks) =
          k ++ ('\n' :: write_txt_content (k2 :: ks)) := by
        simp [write_txt_content, joinNL]
      have hsplit1 : splitNL ('\n' :: write_txt_content (k2 :: ks)) =
          [] :: ((k2 :: ks) ++ [[]]) := by
        rw [splitNL, if_pos rfl, hrest]
      rw [hcontent, splitNL_append k _ [] ((k2 :: ks) ++ [[]]) hsplit1 hk]
      simp

/-- Witness for C8 (amended): two one-digit keys. -/
theorem write_txt_roundtrip_amended_witness :
    (([['0'], ['1']] : List (List Char)) ≠ [] ∧
      ∀ k ∈ ([['0'], ['1']] : List (List Char)), ('\n') ∉ k) ∧
    splitNL (write_txt_content [['0'], ['1']]) = [['0'], ['1']] ++ [[]] :=
  ⟨⟨by decide, by decide⟩,
    write_txt_roundtrip_amended [['0'], ['1']] (by decide) (by decide)⟩

/-- Counterexample to C8 as stated: splitting the TXT content on newlines
does not reproduce the key sequence exactly — the trailing newline
contributes one extra empty entry. -/
theorem write_txt_roundtrip_counterexample :
    splitNL (write_txt_content [['0'], ['1']]) ≠ [['0'], ['1']] := by decide

/-- C9 (amended): `normalize_hora` returns the canonical placeholder when
the input is empty or whitespace-only or strips to a recognized placeholder
variant; every other input is returned *stripped* of leading and trailing
whitespace (hence unchanged exactly when it carries no outer whitespace). -/
theorem normalize_hora_amended (h : String) :
    (pyStrip h = "" → normalize_hora h = "_____ : _____") ∧
    ((pyStrip h = "_____ : _____" ∨ pyStrip h = "_____:_____" ∨
        pyStrip h = "____ : ____") → normalize_hora h = "_____ : _____") ∧
    (pyStrip h ≠ "" →
      ¬ (pyStrip h = "_____ : _____" ∨ pyStrip h = "_____:_____" ∨
          pyStrip h = "____ : ____") →
      normalize_hora h = pyStrip h) := by
  refine ⟨?_, ?_, ?_⟩
  · intro hs
    rw [normalize_hora, if_pos (Or.inr hs)]
  · intro hv
    rw [normalize_hora]
    split
    · rfl
    · simp [hv]
  · intro hs hv
    have hcond : ¬ (h = "" ∨ pyStrip h = "") := by
      rintro (rfl | hse)
      · exact hs rfl
      · exact hs hse
    rw [normalize_hora, if_neg hcond, if_neg hv]

/-- Witness for C9 (amended): input `"x"` has no outer whitespace and is no
placeholder, so it passes through as its own strip. -/
theorem normalize_hora_amended_witness :
    (pyStrip ("x") ≠ "" ∧
      ¬ (pyStrip ("x") = "_____ : _____" ∨ pyStrip ("x") = "_____:_____" ∨
          pyStrip ("x") = "____ : ____")) ∧
    normalize_hora ("x") = pyStrip ("x") :=
  ⟨⟨by decide, by decide⟩,
    (normalize_hora_amended ("x")).2.2 (by decide) (by decide)⟩

/-- Counterexample to C9 as stated: `" 9h "` is non-empty, not
whitespace-only and no placeholder variant, yet it does not pass through
unchanged — the source returns the stripped string (line 54). -/
theorem normalize_hora_claim_counterexample :
    normalize_hora (" 9h ") ≠ " 9h " := by decide

/-- Flattening one page grid column by column gives the first
`cols * lpc` keys of its stream. -/
theorem pageColumns_flatten {α : Type} :
    ∀ (c l : ℕ) (ks : List α), (pageColumns ks c l).flatten = ks.take (c * l) := by
  intro c
  induction c with
  | zero => intro l ks; simp [pageColumns]
  | succ c ih =>
    intro l ks
    rw [pageColumns]
    simp only [List.flatten_cons, ih]
    rw [Nat.succ_mul, Nat.add_comm, List.take_add]

/-- `getD` through `take`, inside the taken range. -/
theorem getD_take_lt {α : Type} (d : α) (ks : List α) (p l : ℕ) (h : p < l) :
    (ks.take l).getD p d = ks.getD p d := by
  simp [List.getD, List.getElem?_take, h]

/-- `getD` through `drop`. -/
theorem getD_drop_add {α : Type} (d : α) (ks : List α) (p l : ℕ) :
    (ks.drop l).getD p d = ks.getD (l + p) d := by
  simp [List.getD, List.getElem?_drop]

/-- Key number `p` of a page lands in column `p / l`, row `p % l`. -/
theorem pageColumns_getD {α : Type} (d : α) :
    ∀ (c : ℕ) (ks : List α) (l p : ℕ), 1 ≤ l → p < c * l → p < ks.length →
      ((pageColumns ks c l).getD (p / l) []).getD (p % l) d = ks.getD p d := by
  intro c
  induction c with
  | zero => intro ks l p _ hp _; omega
  | succ c ih =>
    intro ks l p hl hp hlen
    rw [pageColumns]
    by_cases hpl : p < l
    · rw [Nat.div_eq_of_lt hpl, Nat.mod_eq_of_lt hpl, List.getD_cons_zero,
        getD_take_lt d ks p l hpl]
    · have hlp : l ≤ p := Nat.le_of_not_lt hpl
      rw [Nat.div_eq_sub_div (by omega) hlp, Nat.mod_eq_sub_mod hlp,
        List.getD_cons_succ]
      have h1 : p - l < c * l := by
        rw [Nat.succ_mul] at hp
        omega
      have h2 : p - l < (ks.drop l).length := by
        rw [List.length_drop]; omega
      rw [ih (ks.drop l) l (p - l) hl h1 h2, getD_drop_add]
      congr 1
      omega

/-- With positive column and line counts, fuel `keys.length` always
suffices: each emitted page consumes at least one key, the loop terminates,
and flattening the pages in page, column, row order restores the stream. -/
theorem paginate_total {α : Type} :
    ∀ (f : ℕ) (keys : List α) (cols l1 lN : ℕ), keys.length ≤ f →
      1 ≤ cols → 1 ≤ l1 → 1 ≤ lN →
      ∃ pages, paginate f keys cols l1 lN = some pages ∧
        (pages.map List.flatten).flatten = keys := by
  intro f
  induction f with
  | zero =>
    intro keys cols l1 lN hlen _ _ _
    have : keys = [] := List.length_eq_zero.mp (Nat.le_zero.mp hlen)
    subst this
    exact ⟨[], rfl, rfl⟩
  | succ f ih =>
    intro keys cols l1 lN hlen hc h1 hN
    match keys with
    | [] => exact ⟨[], rfl, rfl⟩
    | k :: ks =>
      have hdlen : ((k :: ks).drop (cols * l1)).length ≤ f := by
        rw [List.length_drop]
        have : 1 ≤ cols * l1 := Nat.one_le_iff_ne_zero.mpr (by positivity)
        simp only [List.length_cons] at hlen ⊢
        omega
      obtain ⟨ps, hps, hflat⟩ := ih ((k :: ks).drop (cols * l1)) cols lN lN hdlen hc hN hN
      refine ⟨pageColumns (k :: ks) cols l1 :: ps, ?_, ?_⟩
      · rw [paginate, hps]
      · simp only [List.map_cons, List.flatten_cons, hflat, pageColumns_flatten]
        exact List.take_append_drop _ _

/-- C1: with any positive geometry the paginator is strict column-major:
paginating a key list succeeds and flattening all pages in page order, then
column order, then row order reproduces the key list exactly; and inside any
page the key at flattened position `p` sits in column `p / l`,
row `p % l`. -/
theorem keys_column_major (keys : List String) (cols l1 lN : ℕ)
    (hc : 1 ≤ cols) (h1 : 1 ≤ l1) (hN : 1 ≤ lN) :
    (∃ pages, paginate keys.length keys cols l1 lN = some pages ∧
        (pages.map List.flatten).flatten = keys) ∧
    (∀ (ks : List String) (l : ℕ), 1 ≤ l → ∀ p : ℕ, p < cols * l →
        p < ks.length →
        ((pageColumns ks cols l).getD (p / l) []).getD (p % l) ("") =
          ks.getD p ("")) :=
  ⟨paginate_total keys.length keys cols l1 lN le_rfl hc h1 hN,
    fun ks l hl p hp hplen => pageColumns_getD ("") cols ks l p hl hp hplen⟩

/-- Witness for C1: three keys, two columns, one line per column. -/
theorem keys_column_major_witness :
    1 ≤ 2 ∧
    (∃ pages, paginate (["a", "b", "c"] : List String).length ["a", "b", "c"] 2 1 1 =
        some pages ∧ (pages.map List.flatten).flatten = ["a", "b", "c"]) :=
  ⟨by decide,
    (keys_column_major ["a", "b", "c"] 2 1 1 (by decide) (by decide) (by decide)).1⟩

/-- The planner only ever returns 2 or 3 columns. -/
theorem choose_cols_two_or_three (sw : String → String → ℚ → ℚ)
    (keys : List String) (w left right gutter : ℚ) (lpc : Nat) (font : String)
    (max_font min_font_ok : ℚ) :
    (chooseColumnsAndFont sw keys w left right gutter lpc font max_font min_font_ok).1 = 2 ∨
    (chooseColumnsAndFont sw keys w left right gutter lpc font max_font min_font_ok).1 = 3 := by
  simp only [chooseColumnsAndFont]
  split <;> simp

/-- C10: the pagination loop of `render_pdf` terminates for every key list:
the chosen column count is at least 2, both line budgets are forced to at
least 1, and with fuel `keys.length` (one page consumes at least one key, so
the key index strictly increases) the paginator finishes with all keys
placed. -/
theorem pagination_terminates (sw : String → String → ℚ → ℚ) (keys : List String) :
    2 ≤ (renderLayout sw keys).cols ∧ 1 ≤ lpc1 ∧ 1 ≤ lpcN ∧
    (paginate keys.length keys (renderLayout sw keys).cols lpc1 lpcN).isSome = true := by
  have hR : (renderLayout sw keys).cols =
      (chooseColumnsAndFont sw keys pageW leftM rightM gutterQ lpc1
        ("Courier") 10 (17/2)).1 := rfl
  have hcols : (renderLayout sw keys).cols = 2 ∨ (renderLayout sw keys).cols = 3 := by
    rw [hR]
    exact choose_cols_two_or_three sw keys pageW leftM rightM gutterQ lpc1
      ("Courier") 10 (17/2)
  have h2 : 2 ≤ (renderLayout sw keys).cols := by rcases hcols with h | h <;> omega
  have h1 : 1 ≤ lpc1 := le_max_left 1 _
  have hN : 1 ≤ lpcN := le_max_left 1 _
  obtain ⟨pages, hps, -⟩ := paginate_total keys.length keys
    (renderLayout sw keys).cols lpc1 lpcN le_rfl (by omega) h1 hN
  exact ⟨h2, h1, hN, by rw [hps]; rfl⟩

/-- Folding `min` from an initial value never exceeds the initial value. -/
theorem foldl_min_le (l : List ℚ) : ∀ a : ℚ, l.foldl min a ≤ a := by
  induction l with
  | nil => intro a; exact le_refl a
  | cons x xs ih =>
    intro a
    calc xs.foldl min (min a x) ≤ min a x := ih (min a x)
    _ ≤ a := min_le_left a x

/-- The lowest drawn coordinate of a page is at most the page-start cursor. -/
theorem pageLowest_le (y llh : ℚ) (grid : List (List String)) :
    pageLowest y llh grid ≤ y := foldl_min_le _ y

/-- C6: for a non-empty key list the total line is placed at the final
cursor (the lowest position written on the last page) minus the fixed gap
`list_line_h * 1.8`, clamped from below by `total_min_y`; the gap is
strictly positive, the drawn total line never lies below `total_min_y`, and
`total_min_y` is strictly above the top of the signature block, so the
total line never overlaps the signature blocks. -/
theorem total_line_gap_and_clamp (sw : String → String → ℚ → ℚ)
    (keys : List String) (_hne : keys ≠ []) :
    (renderLayout sw keys).totalY =
      max ((renderLayout sw keys).lowestY - listLineH * gapKeysToTotal) totalMinY ∧
    0 < listLineH * gapKeysToTotal ∧
    totalMinY ≤ (renderLayout sw keys).totalY ∧
    sigBlockTop < (renderLayout sw keys).totalY := by
  refine ⟨rfl, ?_, le_max_right _ _, ?_⟩
  · rw [listLineH, gapKeysToTotal, mmQ]; norm_num
  · have h1 : sigBlockTop < totalMinY := by
      rw [totalMinY, sigBlockTop, sigLineY, mmQ]; norm_num
    exact lt_of_lt_of_le h1 (le_max_right _ _)

/-- Witness for C6: a single key. -/
theorem total_line_gap_and_clamp_witness :
    ((["k"] : List String) ≠ []) ∧
    ((renderLayout (fun _ _ _ => 0) ["k"]).totalY =
      max ((renderLayout (fun _ _ _ => 0) ["k"]).lowestY -
        listLineH * gapKeysToTotal) totalMinY ∧
    0 < listLineH * gapKeysToTotal ∧
    totalMinY ≤ (renderLayout (fun _ _ _ => 0) ["k"]).totalY ∧
    sigBlockTop < (renderLayout (fun _ _ _ => 0) ["k"]).totalY) :=
  ⟨by decide, total_line_gap_and_clamp (fun _ _ _ => 0) ["k"] (by decide)⟩

/-- C7: the layout stage never fails and never needs an extra page for the
total line: for every non-empty key list the paginator places every key
(flattening the produced pages restores the list — the renderer always
yields a complete, valid document), and the clamped total-line position
always lies strictly inside the current page, above the bottom edge and
below the writable top, so the overflow fallback's antecedent (no room left
even at the floored position) never arises and no error is ever raised. -/
theorem footer_overflow_fallback (sw : String → String → ℚ → ℚ)
    (keys : List String) (hne : keys ≠ []) :
    (((renderLayout sw keys).pages.map List.flatten).flatten = keys) ∧
    0 < (renderLayout sw keys).totalY ∧
    (renderLayout sw keys).totalY < topY := by
  have hR : (renderLayout sw keys).cols =
      (chooseColumnsAndFont sw keys pageW leftM rightM gutterQ lpc1
        ("Courier") 10 (17/2)).1 := rfl
  have hcols2 : 1 ≤ (renderLayout sw keys).cols := by
    rcases (hR ▸ choose_cols_two_or_three sw keys pageW leftM rightM gutterQ lpc1
      ("Courier") 10 (17/2) : (renderLayout sw keys).cols = 2 ∨ _) with h | h <;> omega
  obtain ⟨ps, hps, hflat⟩ := paginate_total keys.length keys
    (renderLayout sw keys).cols lpc1 lpcN le_rfl hcols2
    (le_max_left 1 _) (le_max_left 1 _)
  have hpages : (renderLayout sw keys).pages =
      (paginate keys.length keys (renderLayout sw keys).cols lpc1 lpcN).getD [] := rfl
  have hpg : (renderLayout sw keys).pages = ps := by rw [hpages, hps]; rfl
  refine ⟨by rw [hpg]; exact hflat, ?_, ?_⟩
  · have h0 : (0 : ℚ) < totalMinY := by
      rw [totalMinY, sigBlockTop, sigLineY, mmQ]; norm_num
    exact lt_of_lt_of_le h0 (le_max_right _ _)
  · have hemp : keys.isEmpty = false := by
      cases keys with
      | nil => exact absurd rfl hne
      | cons a l => rfl
    have hlowdef : (renderLayout sw keys).lowestY =
        if keys.isEmpty then yList1
        else pageLowest
          (if ((paginate keys.length keys (renderLayout sw keys).cols lpc1 lpcN).getD []).length ≤ 1
            then yList1 else yListN)
          listLineH
          (((paginate keys.length keys (renderLayout sw keys).cols lpc1 lpcN).getD []).getLastD []) := rfl
    have h1N : yList1 ≤ yListN := by
      rw [yList1, yListN, topY, pageH, headerH, boxH, lineH, mmQ]; norm_num
    have hlow : (renderLayout sw keys).lowestY ≤ yListN := by
      rw [hlowdef, hemp]
      simp only [Bool.false_eq_true, if_false]
      refine le_trans (pageLowest_le _ _ _) ?_
      split
      · exact h1N
      · exact le_refl _
    have htot : (renderLayout sw keys).totalY =
        max ((renderLayout sw keys).lowestY - listLineH * gapKeysToTotal) totalMinY := rfl
    rw [htot]
    have hg : (0 : ℚ) < listLineH * gapKeysToTotal := by
      rw [listLineH, gapKeysToTotal, mmQ]; norm_num
    have hNtop : yListN < topY := by
      rw [yListN, topY, pageH, lineH, mmQ]; norm_num
    have hmtop : totalMinY < topY := by
      rw [totalMinY, sigBlockTop, sigLineY, topY, pageH, mmQ]; norm_num
    exact max_lt (by linarith) hmtop

/-- Witness for C7: a single key. -/
theorem footer_overflow_fallback_witness :
    ((["k"] : List String) ≠ []) ∧
    ((((renderLayout (fun _ _ _ => 0) ["k"]).pages.map List.flatten).flatten = ["k"]) ∧
    0 < (renderLayout (fun _ _ _ => 0) ["k"]).totalY ∧
    (renderLayout (fun _ _ _ => 0) ["k"]).totalY < topY) :=
  ⟨by decide, footer_overflow_fallback (fun _ _ _ => 0) ["k"] (by decide)⟩

/-- The kept tokens of the page scan are the dedup scan of its tokens. -/
theorem scanPage_fst : ∀ (toks seen : List (List Char)),
    (scanPage toks seen).1 = dedupScan toks seen := by
  intro toks
  induction toks with
  | nil => intro seen; rfl
  | cons k ks ih =>
    intro seen
    rw [scanPage, dedupScan]
    split
    · exact ih seen
    · simp only [ih (k :: seen)]

/-- The final `seen` of the page scan is `seenAfter` of its tokens. -/
theorem scanPage_snd : ∀ (toks seen : List (List Char)),
    (scanPage toks seen).2 = seenAfter toks seen := by
  intro toks
  induction toks with
  | nil => intro seen; rfl
  | cons k ks ih =>
    intro seen
    rw [scanPage, seenAfter]
    split
    · exact ih seen
    · exact ih (k :: seen)

/-- Dedup-scanning a concatenation scans the second part against the `seen`
set accumulated over the first. -/
theorem dedupScan_append : ∀ (a b seen : List (List Char)),
    dedupScan (a ++ b) seen = dedupScan a seen ++ dedupScan b (seenAfter a seen) := by
  intro a
  induction a with
  | nil => intro b seen; rfl
  | cons k ks ih =>
    intro b seen
    rw [List.cons_append, dedupScan, dedupScan, seenAfter]
    split
    · exact ih b seen
    · rw [List.cons_append, ih b (k :: seen)]

/-- The page-structured extraction equals the dedup scan of the
concatenated per-page match streams. -/
theorem scanPages_eq : ∀ (pages seen : List (List Char)),
    scanPages pages seen = dedupScan ((pages.map reFindAll).flatten) seen := by
  intro pages
  induction pages with
  | nil => intro seen; rfl
  | cons p ps ih =>
    intro seen
    rw [scanPages, List.map_cons, List.flatten_cons, dedupScan_append,
      scanPage_fst, scanPage_snd, ih]

/-- Membership in a dedup scan: present in the stream and not yet seen. -/
theorem mem_dedupScan : ∀ (l seen : List (List Char)) (k : List Char),
    k ∈ dedupScan l seen ↔ k ∈ l ∧ k ∉ seen := by
  intro l
  induction l with
  | nil => intro seen k; simp [dedupScan]
  | cons x xs ih =>
    intro seen k
    rw [dedupScan]
    split
    · rename_i hx
      rw [ih]
      constructor
      · rintro ⟨hk, hs⟩
        exact ⟨List.mem_cons_of_mem x hk, hs⟩
      · rintro ⟨hk, hs⟩
        rcases List.mem_cons.mp hk with rfl | hk
        · exact absurd hx hs
        · exact ⟨hk, hs⟩
    · rename_i hx
      constructor
      · intro hk
        rcases List.mem_cons.mp hk with rfl | hk
        · exact ⟨List.mem_cons_self _ _, hx⟩
        · obtain ⟨h1, h2⟩ := (ih (x :: seen) k).mp hk
          exact ⟨List.mem_cons_of_mem x h1,
            fun hs => h2 (List.mem_cons_of_mem x hs)⟩
      · rintro ⟨hk, hs⟩
        rcases List.mem_cons.mp hk with rfl | hk
        · exact List.mem_cons_self _ _
        · by_cases hkx : k = x
          · subst hkx; exact List.mem_cons_self _ _
          · exact List.mem_cons_of_mem _ ((ih (x :: seen) k).mpr
              ⟨hk, fun h => (List.mem_cons.mp h).elim hkx hs⟩)

/-- A dedup scan has no duplicates. -/
theorem nodup_dedupScan : ∀ (l seen : List (List Char)),
    (dedupScan l seen).Nodup := by
  intro l
  induction l with
  | nil => intro seen; simp [dedupScan]
  | cons x xs ih =>
    intro seen
    rw [dedupScan]
    split
    · exact ih seen
    · refine List.nodup_cons.mpr ⟨?_, ih (x :: seen)⟩
      intro hx
      exact ((mem_dedupScan xs (x :: seen) x).mp hx).2 (List.mem_cons_self _ _)

/-- Unfolding `firstIdx` over a cons cell. -/
theorem firstIdx_cons (x : List Char) (xs : List (List Char)) (k : List Char) :
    firstIdx (x :: xs) k = if x = k then 0 else firstIdx xs k + 1 := by
  rw [firstIdx, List.findIdx_cons, firstIdx]
  by_cases h : x = k
  · simp [h]
  · simp [h]

/-- The dedup scan preserves the relative order of first occurrences. -/
theorem dedupScan_firstIdx : ∀ (l seen : List (List Char)) (a b : List Char),
    a ∈ dedupScan l seen → b ∈ dedupScan l seen →
    (firstIdx (dedupScan l seen) a < firstIdx (dedupScan l seen) b ↔
      firstIdx l a < firstIdx l b) := by
  intro l
  induction l with
  | nil => intro seen a b ha _; simp [dedupScan] at ha
  | cons x xs ih =>
    intro seen a b ha hb
    rw [dedupScan] at ha hb ⊢
    by_cases hx : x ∈ seen
    · rw [if_pos hx] at ha hb ⊢
      have hma := (mem_dedupScan xs seen a).mp ha
      have hmb := (mem_dedupScan xs seen b).mp hb
      have hax : x ≠ a := fun h => hma.2 (h ▸ hx)
      have hbx : x ≠ b := fun h => hmb.2 (h ▸ hx)
      rw [firstIdx_cons, firstIdx_cons, if_neg hax, if_neg hbx,
        Nat.add_lt_add_iff_right]
      exact ih seen a b ha hb
    · rw [if_neg hx] at ha hb ⊢
      by_cases hax : x = a
      · subst hax
        by_cases hbx : x = b
        · subst hbx
          simp
        · have hb2 : b ∈ dedupScan xs (x :: seen) := by
            rcases List.mem_cons.mp hb with h | h
            · exact absurd h.symm hbx
            · exact h
          have hbks := (mem_dedupScan xs (x :: seen) b).mp hb2
          rw [firstIdx_cons, firstIdx_cons, firstIdx_cons, firstIdx_cons,
            if_pos rfl, if_pos rfl, if_neg hbx, if_neg hbx]
          simp
      · have ha2 : a ∈ dedupScan xs (x :: seen) := by
          rcases List.mem_cons.mp ha with h | h
          · exact absurd h.symm hax
          · exact h
        have haks := (mem_dedupScan xs (x :: seen) a).mp ha2
        by_cases hbx : x = b
        · subst hbx
          rw [firstIdx_cons, firstIdx_cons, firstIdx_cons, firstIdx_cons,
            if_pos rfl, if_pos rfl, if_neg hax, if_neg hax]
          simp
        · have hb2 : b ∈ dedupScan xs (x :: seen) := by
            rcases List.mem_cons.mp hb with h | h
            · exact absurd h.symm hbx
            · exact h
          rw [firstIdx_cons, firstIdx_cons, firstIdx_cons, firstIdx_cons,
            if_neg hax, if_neg hbx, if_neg hax, if_neg hbx,
            Nat.add_lt_add_iff_right, Nat.add_lt_add_iff_right]
          exact ih (x :: seen) a b ha2 hb2

/-- C2: the extracted key sequence has no duplicate tokens, contains exactly
the tokens matched on the pages (scanned in page order), and lists them in
order of first occurrence: relative order in the output agrees with the
relative order of first occurrences in the concatenated match stream. -/
theorem extract_keys_nodup_first_occurrence (pages : List (List Char)) :
    (extract_keys_from_pdf pages).Nodup ∧
    (∀ k, k ∈ extract_keys_from_pdf pages ↔ k ∈ (pages.map reFindAll).flatten) ∧
    (∀ a b, a ∈ extract_keys_from_pdf pages → b ∈ extract_keys_from_pdf pages →
      (firstIdx (extract_keys_from_pdf pages) a <
          firstIdx (extract_keys_from_pdf pages) b ↔
        firstIdx ((pages.map reFindAll).flatten) a <
          firstIdx ((pages.map reFindAll).flatten) b)) := by
  have he : extract_keys_from_pdf pages =
      dedupScan ((pages.map reFindAll).flatten) [] := scanPages_eq pages []
  refine ⟨?_, ?_, ?_⟩
  · rw [extract_keys_from_pdf, scanPages_eq]
    exact nodup_dedupScan _ []
  · intro k
    rw [he, mem_dedupScan]
    simp
  · intro a b ha hb
    rw [he] at ha hb ⊢
    exact dedupScan_firstIdx _ [] a b ha hb

/-- Witness for C2: a single page with one dot-bounded 44-digit run. -/
theorem extract_keys_nodup_first_occurrence_witness :
    d44c ∈ extract_keys_from_pdf [keyPage] ∧
    (firstIdx (extract_keys_from_pdf [keyPage]) d44c <
        firstIdx (extract_keys_from_pdf [keyPage]) d44c ↔
      firstIdx (([keyPage].map reFindAll).flatten) d44c <
        firstIdx (([keyPage].map reFindAll).flatten) d44c) :=
  ⟨by decide, (extract_keys_nodup_first_occurrence [keyPage]).2.2 d44c d44c
    (by decide) (by decide)⟩

/-- Digits are word characters. -/
theorem isWord_of_isDigit (c : Char) (h : isDigitB c = true) : isWordB c = true := by
  rw [isDigitB] at h
  simp [isWordB, Char.isAlphanum, h]

/-- Unfolding one scanning step. -/
theorem goFind_succ (f : ℕ) (s : List Char) (i : ℕ) :
    goFind (f + 1) s i =
      if i < s.length then
        if matchAt s i then ((s.drop i).take 44) :: goFind f s (i + 44)
        else goFind f s (i + 1)
      else [] := rfl

/-- A scan over match-free positions finds nothing. -/
theorem goFind_eq_nil (s : List Char) :
    ∀ (f i : ℕ), (∀ j, i ≤ j → matchAt s j = false) → goFind f s i = [] := by
  intro f
  induction f with
  | zero => intro i _; rfl
  | succ f ih =>
    intro i h
    rw [goFind_succ]
    by_cases hi : i < s.length
    · rw [if_pos hi, h i le_rfl, if_neg Bool.false_ne_true]
      exact ih (i + 1) (fun j hj => h j (by omega))
    · rw [if_neg hi]

/-- In a text of shape `b1 ++ run ++ b2` with non-word `b1, b2` and `run`
all digits, `KEY_RE` can match only at position 1 and only when the run has
exactly 44 digits: anywhere else either the leading boundary sits between
two digits, or a digit lies right after the 44-character window. -/
theorem matchAt_bounded (b1 b2 : Char) (run : List Char)
    (hb1 : isWordB b1 = false) (hb2 : isWordB b2 = false)
    (hrun : ∀ c ∈ run, isDigitB c = true) :
    ∀ i, matchAt (b1 :: (run ++ [b2])) i = true → i = 1 ∧ run.length = 44 := by
  intro i h
  rw [matchAt] at h
  simp only [Bool.and_eq_true, Bool.or_eq_true, decide_eq_true_eq,
    Bool.not_eq_true'] at h
  obtain ⟨⟨⟨h1, h2⟩, h3⟩, h4⟩ := h
  have hslen : (b1 :: (run ++ [b2])).length = run.length + 2 := by simp
  rw [hslen] at h1
  have hi0 : i ≠ 0 := by
    rintro rfl
    rw [List.drop_zero, show (44 : ℕ) = 43 + 1 from rfl, List.take_succ_cons,
      List.all_cons, Bool.and_eq_true] at h2
    have := isWord_of_isDigit b1 h2.1
    rw [hb1] at this
    exact Bool.false_ne_true this
  have hi1 : i = 1 := by
    by_contra hne
    have hi2 : 2 ≤ i := by omega
    rcases h3 with h3 | h3
    · exact hi0 h3
    · have hidx : i - 2 < run.length := by omega
      rw [show i - 1 = (i - 2) + 1 from by omega, List.getD_cons_succ,
        List.getD_append _ _ _ _ hidx, List.getD_eq_getElem _ _ hidx] at h3
      have := isWord_of_isDigit _ (hrun _ (List.getElem_mem hidx))
      rw [h3] at this
      exact Bool.false_ne_true this
  subst hi1
  have hr43 : 43 ≤ run.length := by omega
  have hne43 : run.length ≠ 43 := by
    intro h43
    rw [show (1 : ℕ) = 0 + 1 from rfl, List.drop_succ_cons, List.drop_zero,
      List.take_of_length_le (by simp [h43])] at h2
    have hb2d := List.all_eq_true.mp h2 b2
      (List.mem_append_right run (List.mem_singleton_self b2))
    have := isWord_of_isDigit b2 hb2d
    rw [hb2] at this
    exact Bool.false_ne_true this
  have hlt45 : run.length < 45 := by
    by_contra hge
    have h44 : 44 < run.length := by omega
    rcases h4 with h4 | h4
    · rw [hslen] at h4; omega
    · rw [show (1 : ℕ) + 44 = 44 + 1 from rfl, List.getD_cons_succ,
        List.getD_append _ _ _ _ h44, List.getD_eq_getElem _ _ h44] at h4
      have := isWord_of_isDigit _ (hrun _ (List.getElem_mem h44))
      rw [h4] at this
      exact Bool.false_ne_true this
  exact ⟨rfl, by omega⟩

/-- With non-word bounds and a run of exactly 44 digits, `KEY_RE` matches at
position 1. -/
theorem matchAt_one (b1 b2 : Char) (run : List Char)
    (hb1 : isWordB b1 = false) (hb2 : isWordB b2 = false)
    (hrun : ∀ c ∈ run, isDigitB c = true) (h44 : run.length = 44) :
    matchAt (b1 :: (run ++ [b2])) 1 = true := by
  have hslen : (b1 :: (run ++ [b2])).length = 46 := by simp [h44]
  have hdrop : ((b1 :: (run ++ [b2])).drop 1).take 44 = run := by
    rw [show (1 : ℕ) = 0 + 1 from rfl, List.drop_succ_cons, List.drop_zero,
      ← h44, List.take_left]
  rw [matchAt]
  simp only [Bool.and_eq_true, Bool.or_eq_true, decide_eq_true_eq,
    Bool.not_eq_true']
  refine ⟨⟨⟨by rw [hslen]; omega, ?_⟩, ?_⟩, ?_⟩
  · rw [hdrop]
    exact List.all_eq_true.mpr hrun
  · right
    rw [show (1 : ℕ) - 1 = 0 from rfl, List.getD_cons_zero]
    exact hb1
  · right
    rw [show (1 : ℕ) + 44 = 44 + 1 from rfl, List.getD_cons_succ,
      List.getD_append_right _ _ _ _ (by omega), h44]
    simpa using hb2

/-- C3 (amended): `KEY_RE = \b\d{44}\b` matches exactly 44 consecutive
digits as a whole token and never a run of 43 or 45+ digits; a run of
exactly 44 digits bounded on both sides by **non-word** characters
(non-letter, non-digit, non-underscore — Python `\b` does not fire between
two word characters, so letter bounds do not count, unlike the claim's
"non-digit") yields exactly that one key, and a digit run of any other
length so bounded yields no key at all. -/
theorem keyre_whole_token_amended (b1 b2 : Char) (run : List Char)
    (hb1 : isWordB b1 = false) (hb2 : isWordB b2 = false)
    (hrun : ∀ c ∈ run, isDigitB c = true) :
    (run.length = 44 → reFindAll (b1 :: (run ++ [b2])) = [run]) ∧
    (run.length ≠ 44 → reFindAll (b1 :: (run ++ [b2])) = []) := by
  constructor
  · intro h44
    have hslen : (b1 :: (run ++ [b2])).length = 46 := by simp [h44]
    have h0 : matchAt (b1 :: (run ++ [b2])) 0 = false := by
      rw [Bool.eq_false_iff]
      intro hm
      exact absurd (matchAt_bounded b1 b2 run hb1 hb2 hrun 0 hm).1 (by omega)
    have hdrop : ((b1 :: (run ++ [b2])).drop 1).take 44 = run := by
      rw [show (1 : ℕ) = 0 + 1 from rfl, List.drop_succ_cons, List.drop_zero,
        ← h44, List.take_left]
    have h1 : matchAt (b1 :: (run ++ [b2])) 1 = true :=
      matchAt_one b1 b2 run hb1 hb2 hrun h44
    have e2 : goFind 44 (b1 :: (run ++ [b2])) 45 = [] := by
      refine goFind_eq_nil _ 44 45 (fun j hj => ?_)
      rw [Bool.eq_false_iff]
      intro hm
      have := (matchAt_bounded b1 b2 run hb1 hb2 hrun j hm).1
      omega
    rw [reFindAll, hslen, show (46 : ℕ) = 45 + 1 from rfl, goFind_succ,
      if_pos (by rw [hslen]; omega), h0, if_neg Bool.false_ne_true,
      show (0 : ℕ) + 1 = 1 from rfl, show (45 : ℕ) = 44 + 1 from rfl,
      goFind_succ, if_pos (by rw [hslen]; omega), h1, if_pos rfl, hdrop,
      show (1 : ℕ) + 44 = 45 from rfl, e2]
  · intro hne
    refine goFind_eq_nil _ _ 0 (fun j hj => ?_)
    rw [Bool.eq_false_iff]
    intro hm
    exact hne (matchAt_bounded b1 b2 run hb1 hb2 hrun j hm).2

/-- Witness for C3 (amended): 44 zeros between two dots. -/
theorem keyre_whole_token_amended_witness :
    (isWordB ('.') = false ∧ (∀ c ∈ d44c, isDigitB c = true) ∧
      d44c.length = 44) ∧
    reFindAll ('.' :: (d44c ++ ['.'])) = [d44c] :=
  ⟨⟨by decide, by decide, by decide⟩,
    (keyre_whole_token_amended '.' '.' d44c (by decide) (by decide)
      (by decide)).1 (by decide)⟩

/-- Counterexample to C3 as stated: `'a'` is a non-digit character, so by
the claim a 44-digit run bounded by `'a'` on both sides should yield exactly
one key; the pattern's `\b` does not fire between the letter and the first
digit, and the scan finds nothing. -/
theorem keyre_claim_counterexample :
    isDigitB ('a') = false ∧ (∀ c ∈ d44c, isDigitB c = true) ∧
    d44c.length = 44 ∧
    reFindAll ('a' :: (d44c ++ ['a'])) = [] ∧
    reFindAll ('a' :: (d44c ++ ['a'])) ≠ [d44c] := by
  refine ⟨by decide, by decide, by decide, by decide, by decide⟩

end NFe
